import Mathlib

/-!
Verification of the block-construction program in `src/index.js` (a Summer of
Bitcoin mining challenge solution written in JavaScript for Node.js).

The JavaScript source is shallowly embedded here:

* byte buffers become `List Nat` (each entry a byte value 0..255);
* hex strings stay `String`; `Buffer.from(s, "hex")` becomes `hexDecode`,
  `buf.toString("hex")` becomes `hexEncode`;
* JavaScript numbers holding integer quantities become `Nat`/`Int`; the one
  place the program mixes fractional arithmetic (the fee-density sort and the
  `12.5`-based reward in `prioritize`) is modelled in `Rat`, which agrees with
  IEEE double arithmetic on the magnitudes involved (products of integers with
  halves, all well below 2^53);
* `crypto.createHash("sha256")` is an external primitive of the program; all
  definitions that hash take the digest function as an explicit
  `sha : List Nat → List Nat` parameter, so every structural claim is proved
  for the actual program once `sha` is instantiated with SHA-256;
* fallible buffer writes (`writeUInt32LE` throws a `RangeError` outside
  `[0, 2^32)`) are modelled with `Except` where the error path matters (the
  block-header serializer driven by the proof-of-work nonce loop); total
  helpers are used where every call site of the program stays in range.

Definitions keep the source names (`serInt`, `chkSegwit`, `serTransactions`,
`segwitSerialize`, `blockHeaderSerialdata`, `proofOfWork`, `newMerkTree`,
`prioritize`, ...). Definitions whose names start with `spec` are written from
the natural-language specification, for refinement comparisons.
-/

/-! ## Hex codec (Buffer.from(s, "hex") / buf.toString("hex")) -/

/-- Value of one hexadecimal digit character, `none` for a non-digit. -/
def hexVal (c : Char) : Option Nat :=
  if '0' ≤ c ∧ c ≤ '9' then some (c.toNat - 48)
  else if 'a' ≤ c ∧ c ≤ 'f' then some (c.toNat - 87)
  else if 'A' ≤ c ∧ c ≤ 'F' then some (c.toNat - 55)
  else none

/-- Decode hex digit pairs into bytes. Node's `Buffer.from(s, "hex")` stops at
the first invalid pair and ignores a trailing unpaired digit; it never throws
for a string argument. -/
def hexPairs : List Char → List Nat
  | c1 :: c2 :: rest =>
    match hexVal c1, hexVal c2 with
    | some hi, some lo => (16 * hi + lo) :: hexPairs rest
    | _, _ => []
  | _ => []

/-- Model of `Buffer.from(s, "hex")`. -/
def hexDecode (s : String) : List Nat := hexPairs s.toList

/-- Lower-case hex digit for a value below 16 (model of Node's hex output). -/
def hexChar (n : Nat) : Char :=
  if n < 10 then Char.ofNat (48 + n) else Char.ofNat (87 + n)

/-- Model of `buf.toString("hex")`. -/
def hexEncode (bytes : List Nat) : String :=
  String.mk ((bytes.map (fun b => [hexChar (b / 16), hexChar (b % 16)])).flatten)

/-- Source `reversebyte`: reverse the byte order of a buffer. -/
def reversebyte (data : List Nat) : List Nat := data.reverse

/-! ## Fixed-width little-endian writers (source `iTo16b`, `iTo32b`, `ito64b`)

`Buffer.writeUInt16LE` / `writeUInt32LE` / `writeBigUInt64LE` throw a
`RangeError` outside their unsigned domains. The total functions below model
the in-range behaviour (every transaction-serializer call site of the program
passes lengths and JSON field values inside the domain); `iTo32bE` models
`iTo32b` together with its `RangeError`, which the proof-of-work nonce loop
can actually trigger. -/

/-- Source `iTo16b`: two bytes, little endian. -/
def iTo16b (n : Nat) : List Nat := [n % 256, n / 256 % 256]

/-- Source `iTo32b`: four bytes, little endian. -/
def iTo32b (n : Nat) : List Nat :=
  [n % 256, n / 256 % 256, n / 65536 % 256, n / 16777216 % 256]

/-- Source `ito64b`: eight bytes, little endian. -/
def ito64b (n : Nat) : List Nat :=
  [n % 256, n / 256 % 256, n / 65536 % 256, n / 16777216 % 256,
   n / 4294967296 % 256, n / 1099511627776 % 256,
   n / 281474976710656 % 256, n / 72057594037927936 % 256]

/-- Source `iTo32b` with its error path: `buffer.writeUInt32LE(n)` raises a
`RangeError` for values outside `[0, 0xffffffff]`. -/
def iTo32bE (n : Nat) : Except String (List Nat) :=
  if n ≤ 0xffffffff then .ok (iTo32b n) else .error "RangeError: value out of range"

/-! ## Variable-length integer (source `serInt`)

The source takes any JavaScript number. `Buffer.from([n])` does not reject a
negative entry: array entries are coerced modulo 256 (`ToUint8`), so
`serInt(-1)` yields the single byte `0xff` without any error. The domain is
modelled as `Int` to cover that behaviour; values at or above 2^64 (where
`writeBigUInt64LE` would throw) are outside the modelled domain. -/

/-- Source `serInt`: compact variable-length integer. -/
def serInt (n : Int) : List Nat :=
  if n < 0xfd then [(n % 256).toNat]
  else if n ≤ 0xffff then 0xfd :: iTo16b n.toNat
  else if n ≤ 0xffffffff then 0xfe :: iTo32b n.toNat
  else 0xff :: ito64b n.toNat

/-! ## Data model (source classes) -/

/-- Source class `Prevout`, also used for transaction outputs. -/
structure Prevout where
  scriptpubkey : String
  scriptpubkey_asm : String
  scriptpubkey_type : String
  value : Nat
  scriptpubkey_address : String
deriving DecidableEq

/-- Source class `Input`. -/
structure Input where
  txid : String
  vout : Nat
  prevout : Prevout
  scriptsig : String
  scriptsig_asm : String
  witness : List String
  is_coinbase : Bool
  sequence : Nat
deriving DecidableEq

/-- Source class `Transaction`. -/
structure Transaction where
  version : Nat
  locktime : Nat
  vin : List Input
  vout : List Prevout
deriving DecidableEq

/-- Source class `BlockHeader`. -/
structure BlockHeader where
  version : Nat
  prev_block_hash : String
  merkle_root : String
  timestamp : Nat
  bits : Nat
  nonce : Nat
deriving DecidableEq

/-- Source class `TxInfo`: the selector's ephemeral ranking record. -/
structure TxInfo where
  txid : String
  wtxid : String
  fee : Int
  weight : Nat
deriving DecidableEq

/-! ## Serializers -/

/-- Source `chkSegwit`: true iff some input has a non-empty witness. -/
def chkSegwit (tx : Transaction) : Bool :=
  tx.vin.any fun vin => decide (0 < vin.witness.length)

/-- Source `serTransactions`: base (non-witness) transaction serialization.
The buffer-append loop is rendered as a join of per-item chunks. -/
def serTransactions (tx : Transaction) : List Nat :=
  iTo32b tx.version
  ++ serInt (tx.vin.length : Int)
  ++ (tx.vin.map fun vin =>
       reversebyte (hexDecode vin.txid)
       ++ iTo32b vin.vout
       ++ serInt ((hexDecode vin.scriptsig).length : Int)
       ++ hexDecode vin.scriptsig
       ++ iTo32b vin.sequence).flatten
  ++ serInt (tx.vout.length : Int)
  ++ (tx.vout.map fun v =>
       ito64b v.value
       ++ serInt ((hexDecode v.scriptpubkey).length : Int)
       ++ hexDecode v.scriptpubkey).flatten
  ++ iTo32b tx.locktime

/-- Source `segwitSerialize`: witness-inclusive serialization. The marker and
flag bytes and the witness stacks appear only when `chkSegwit` holds. -/
def segwitSerialize (tx : Transaction) : List Nat :=
  iTo32b tx.version
  ++ (if chkSegwit tx then [0x00, 0x01] else [])
  ++ serInt (tx.vin.length : Int)
  ++ (tx.vin.map fun vin =>
       reversebyte (hexDecode vin.txid)
       ++ iTo32b vin.vout
       ++ serInt ((hexDecode vin.scriptsig).length : Int)
       ++ hexDecode vin.scriptsig
       ++ iTo32b vin.sequence).flatten
  ++ serInt (tx.vout.length : Int)
  ++ (tx.vout.map fun v =>
       ito64b v.value
       ++ serInt ((hexDecode v.scriptpubkey).length : Int)
       ++ hexDecode v.scriptpubkey).flatten
  ++ (if chkSegwit tx then
        (tx.vin.map fun vin =>
          serInt (vin.witness.length : Int)
          ++ (vin.witness.map fun w =>
               serInt ((hexDecode w).length : Int) ++ hexDecode w).flatten).flatten
      else [])
  ++ iTo32b tx.locktime

/-- Source `baseSize`: length of the base serialization. -/
def baseSize (tx : Transaction) : Nat := (serTransactions tx).length

/-- Source `witnessSize`: 0 for a non-segwit transaction, otherwise the byte
length of marker+flag plus the per-input witness stacks. -/
def witnessSize (tx : Transaction) : Nat :=
  if chkSegwit tx = false then 0
  else
    ([0x00, 0x01]
     ++ (tx.vin.map fun vin : Input =>
          serInt (vin.witness.length : Int)
          ++ (vin.witness.map fun w =>
               serInt ((hexDecode w).length : Int) ++ hexDecode w).flatten).flatten).length

/-! ## Block header serialization and proof of work -/

/-- Index-by-index comparison body of source `compArrays` (runs once the
lengths are known to match). -/
def compArraysGo : List Nat → List Nat → Int
  | x :: xs, y :: ys =>
    if x < y then -1 else if y < x then 1 else compArraysGo xs ys
  | _, _ => 0

/-- Source `compArrays`: throws "Not same length" on a length mismatch,
otherwise returns -1, 1 or 0 from the first differing index. -/
def compArrays (a b : List Nat) : Except String Int :=
  if a.length ≠ b.length then .error "Not same length"
  else .ok (compArraysGo a b)

/-- Source module constant `target`. -/
def target : String :=
  "0000ffff00000000000000000000000000000000000000000000000000000000"

/-- Source `blockHeaderSerialdata`. The four fixed-width fields go through
`iTo32bE` because `writeUInt32LE` throws outside `[0, 0xffffffff]` — the
proof-of-work loop drives the nonce there. The two hash fields are hex-decoded
verbatim: the source applies no byte reversal to them. -/
def blockHeaderSerialdata (bh : BlockHeader) : Except String (List Nat) := do
  let v ← iTo32bE bh.version
  let t ← iTo32bE bh.timestamp
  let b ← iTo32bE bh.bits
  let n ← iTo32bE bh.nonce
  pure (v ++ hexDecode bh.prev_block_hash ++ hexDecode bh.merkle_root
        ++ t ++ b ++ n)

/-- Source `proofOfWork`: hash the serialized header, return true when the
display-order digest compares strictly below the target, otherwise bump the
nonce and retry; the guard `nonce < 0x0 or nonce > 0xffffffff` (the first
disjunct is vacuous for the unsigned model) would return false. Any exception
from the body (serialization `RangeError`, `compArrays` mismatch) propagates. -/
def proofOfWork (sha : List Nat → List Nat) (bh : BlockHeader) :
    Except String Bool :=
  match blockHeaderSerialdata bh with
  | .error e => .error e
  | .ok serialized =>
    match compArrays (reversebyte (sha (sha serialized))) (hexDecode target) with
    | .error e => .error e
    | .ok c =>
      if c = -1 then .ok true
      else if 0xffffffff < bh.nonce then .ok false
      else proofOfWork sha { bh with nonce := bh.nonce + 1 }
termination_by 0x100000000 - bh.nonce
decreasing_by omega

/-! ## Merkle engine

The source builds `MerkleNode` objects, but the only field any caller reads is
the root's `data` digest, so a node is embedded as its digest. The source's
`newMerknode(lnode, rnode, data)` has two modes, split here into the leaf mode
(both children null: store the byte-reversed data) and the join mode
(both children present: store the double hash of the concatenated child
digests). -/

/-- Source `newMerknode` with `lnode = rnode = null`: a leaf digest. -/
def newMerknodeLeaf (data : List Nat) : List Nat := reversebyte data

/-- Source `newMerknode` with both children present: a parent digest. -/
def newMerknodeJoin (sha : List Nat → List Nat) (l r : List Nat) : List Nat :=
  sha (sha (l ++ r))

/-- One level of the source's inner `for (i = 0; i < nodes.length; i += 2)`
loop, which mutates `nodes` while iterating: at each index it first pushes a
copy of the last node whenever the current node count is odd (so at most one
push happens per level, at the first index), then joins the nodes at `i` and
`i + 1`. Out-of-range indexing is rendered with `getD` (never reached from
the loop entry point `i = 0`). -/
def mkLevel (sha : List Nat → List Nat) (nodes : List (List Nat)) (i : Nat) :
    List (List Nat) :=
  if i < nodes.length then
    let nodes2 :=
      if nodes.length % 2 ≠ 0 then nodes ++ [nodes.getD (nodes.length - 1) []]
      else nodes
    newMerknodeJoin sha (nodes2.getD i []) (nodes2.getD (i + 1) [])
      :: mkLevel sha nodes2 (i + 2)
  else []
termination_by nodes.length + 1 - i
decreasing_by
  split <;> simp [List.length_append] <;> omega

/-- The source's `while (nodes.length > 1)` loop, bounded by an iteration
count. Each pass over a level with at least two nodes strictly shrinks it, so
`nodes.length` passes always suffice; `mkTreeLoop` supplies that bound. -/
def mkTreeGo (sha : List Nat → List Nat) :
    Nat → List (List Nat) → List (List Nat)
  | 0, nodes => nodes
  | fuel + 1, nodes =>
    if 1 < nodes.length then mkTreeGo sha fuel (mkLevel sha nodes 0)
    else nodes

/-- The `while` loop of source `newMerkTree`. -/
def mkTreeLoop (sha : List Nat → List Nat) (nodes : List (List Nat)) :
    List (List Nat) :=
  mkTreeGo sha nodes.length nodes

/-- Source `newMerkTree`: hex-decode each leaf id into a leaf node, then fold
levels until a single node remains and return its digest (`nodes[0]`,
rendered with `getD`). -/
def newMerkTree (sha : List Nat → List Nat) (leaves : List String) : List Nat :=
  (mkTreeLoop sha (leaves.map fun leaf => newMerknodeLeaf (hexDecode leaf))).getD 0 []

/-! ### Spec-side Merkle construction

Written from the specification's words: nodes are combined pairwise left to
right; a level with an odd node count duplicates its last node to pair with
itself, re-applied at every odd level; recurse until one node remains; a
single-element input returns its digest with no combination step. -/

/-- Combine one level pairwise, left to right (even length assumed arranged
by the caller; a dangling element is dropped, which never happens after the
odd-level duplication). -/
def specPairUp (c : α → α → α) : List α → List α
  | a :: b :: rest => c a b :: specPairUp c rest
  | _ => []

/-- One level of the classic Bitcoin Merkle construction: duplicate the last
node when the count is odd, then combine pairwise. -/
def specMerkleLevel (c : α → α → α) (level : List α) : List α :=
  match level.getLast? with
  | none => []
  | some z =>
    specPairUp c (if level.length % 2 = 1 then level ++ [z] else level)

/-- Fold spec levels until at most one node remains (fuel-bounded; every
level at least halves, so `level.length` iterations always suffice and
`specMerkleRoot` supplies that bound). -/
def specMerkleRootGo (c : α → α → α) : Nat → List α → Option α
  | 0, level => level.head?
  | fuel + 1, level =>
    if level.length ≤ 1 then level.head?
    else specMerkleRootGo c fuel (specMerkleLevel c level)

/-- Root of the classic Bitcoin Merkle construction over prepared leaf
digests. -/
def specMerkleRoot (c : α → α → α) (leaves : List α) : Option α :=
  specMerkleRootGo c leaves.length leaves

/-! ## Selector (source `prioritize`)

The source reads candidate transactions from the mempool directory; that file
I/O is the excluded collaborator, so the embedding takes the parsed,
input-ordered candidate list as the argument. Everything after parsing is
transcribed: the `cnt > 4200` early break, the fee and weight computation,
the id computations, the max-normalized fee-density sort, and the greedy
weight-budget scan. -/

/-- The fee/weight/id record built for one candidate (source lines 495-508):
fee is the sum of input prevout values minus the sum of output values; weight
is `witnessSize + baseSize * 4`; ids are the reversed double hashes of the two
serializations, hex-encoded. -/
def mkTxInfo (sha : List Nat → List Nat) (tx : Transaction) : TxInfo :=
  { txid := hexEncode (reversebyte (sha (sha (serTransactions tx))))
    wtxid := hexEncode (reversebyte (sha (sha (segwitSerialize tx))))
    fee := (tx.vin.map fun vin => (vin.prevout.value : Int)).sum
           - (tx.vout.map fun v => (v.value : Int)).sum
    weight := witnessSize tx + baseSize tx * 4 }

/-- The candidate-scanning loop of source `prioritize`: `cnt` counts processed
candidates and the loop breaks once it would exceed 4200. -/
def txInfoLoop (sha : List Nat → List Nat) :
    List Transaction → Nat → List TxInfo
  | [], _ => []
  | tx :: rest, cnt =>
    if 4200 < cnt + 1 then []
    else mkTxInfo sha tx :: txInfoLoop sha rest (cnt + 1)

/-- Fee-per-weight ratio `tx.fee / tx.weight` (exact rational arithmetic;
the doubles the source manipulates are exact at these magnitudes apart from
the division itself, and only the ordering of ratios is ever consumed). -/
def feeRatio (t : TxInfo) : Rat := (t.fee : Rat) / (t.weight : Rat)

/-- Source `Math.max(...ratios)` over the nonempty ratio list (the source
only evaluates it under a `txInfo.length > 0` guard). -/
def maxRatio : List Rat → Rat
  | [] => 0
  | r :: rs => rs.foldl max r

/-- The source comparator `(a, b) => b.r/max - a.r/max` rendered as the
"may come first" relation of a stable sort: `a` stays before `b` exactly when
the comparator is non-positive. When the rational division by `m = 0` yields
0 everywhere this matches the NaN comparator results, which
`Array.prototype.sort` coerces to 0 (keep order). -/
def normLe (m : Rat) (a b : TxInfo) : Bool :=
  decide (feeRatio b / m - feeRatio a / m ≤ 0)

/-- Spec-side ranking relation: plain fee-per-weight ratio descending. -/
def specDescLe (a b : TxInfo) : Bool := decide (feeRatio b ≤ feeRatio a)

/-- Stable insertion into a sorted list: an earlier element passes every later
element it does not strictly lose to, so ties keep input order — the stable
sort contract of `Array.prototype.sort` (V8 TimSort). -/
def insertCmp (le : α → α → Bool) (x : α) : List α → List α
  | [] => [x]
  | y :: ys => if le x y then x :: y :: ys else y :: insertCmp le x ys

/-- Stable sort by a "may come first" relation (insertion sort). -/
def sortCmp (le : α → α → Bool) : List α → List α
  | [] => []
  | x :: xs => insertCmp le x (sortCmp le xs)

/-- The ranking step of source `prioritize` (lines 511-517): compute the
maximum fee-per-weight ratio and stably sort by the max-normalized
comparator; an empty record list is left untouched. -/
def rankTxs (infos : List TxInfo) : List TxInfo :=
  match infos with
  | [] => []
  | _ => sortCmp (normLe (maxRatio (infos.map feeRatio))) infos

/-- The greedy acceptance loop of source `prioritize` (lines 521-529):
scan the ranked records, accept a record when the remaining weight budget
covers its weight and deduct it, otherwise leave the budget unchanged and move
on. -/
def selectTxs : List TxInfo → Nat → List TxInfo
  | [], _ => []
  | t :: ts, permWieght =>
    if t.weight ≤ permWieght then t :: selectTxs ts (permWieght - t.weight)
    else selectTxs ts permWieght

/-- The accepted records of source `prioritize` for a given candidate list. -/
def permittingtxs (sha : List Nat → List Nat) (txs : List Transaction) :
    List TxInfo :=
  selectTxs (rankTxs (txInfoLoop sha txs 0)) 3999300

/-- Source `prioritize`, from the parsed candidate list on: returns
`reward * 100000000` where `reward` starts at the floating literal `12.5` and
accumulates the accepted integer fees, together with the accepted txid and
wtxid lists. All accumulations are exact in doubles at sane magnitudes, so the
reward arithmetic is modelled in `Rat`. -/
def prioritize (sha : List Nat → List Nat) (txs : List Transaction) :
    Rat × List String × List String :=
  let perm := permittingtxs sha txs
  (((12.5 : Rat) + ((perm.map TxInfo.fee).sum : Int)) * 100000000,
   perm.map TxInfo.txid,
   perm.map TxInfo.wtxid)

/-! ## Concrete instances used by witnesses and counterexamples -/

-- Equality of `Except` results is decidable componentwise.
deriving instance DecidableEq for Except

/-- A stand-in digest function: constant 32 zero bytes. Structural claims are
proved for every `sha`; the constant instantiation lets closed corollaries
evaluate. -/
def shaZ : List Nat → List Nat := fun _ => List.replicate 32 0

/-- A stand-in digest function: constant 32 `0xff` bytes, so every header
digest compares above the target. -/
def shaFF : List Nat → List Nat := fun _ => List.replicate 32 255

/-- A stand-in digest function with data-dependent output, for Merkle
instances. -/
def shaT : List Nat → List Nat := fun l => [l.length % 256, l.sum % 256]

/-- Prevout worth 2000 referenced by the sample input of `tx1`. -/
def prevA : Prevout := ⟨"", "", "", 2000, ""⟩

/-- Output worth 1000 of `tx1`. -/
def outA : Prevout := ⟨"", "", "", 1000, ""⟩

/-- Sole input of `tx1` (no witness). -/
def inA : Input := ⟨"", 0, prevA, "", "", [], false, 0⟩

/-- Sample candidate paying fee 1000 (2000 in, 1000 out), weight 112. -/
def tx1 : Transaction := ⟨1, 0, [inA], [outA]⟩

/-- Prevout worth 5 referenced by the sample input of `txNeg`. -/
def prevN : Prevout := ⟨"", "", "", 5, ""⟩

/-- Output worth 10 of `txNeg`. -/
def outN : Prevout := ⟨"", "", "", 10, ""⟩

/-- Sole input of `txNeg` (no witness). -/
def inN : Input := ⟨"", 0, prevN, "", "", [], false, 0⟩

/-- Sample candidate with negative fee -5 (5 in, 10 out). -/
def txNeg : Transaction := ⟨1, 0, [inN], [outN]⟩

/-- Ranking record with fee -1, weight 1. -/
def cexA : TxInfo := ⟨"", "", -1, 1⟩

/-- Ranking record with fee -2, weight 1. -/
def cexB : TxInfo := ⟨"", "", -2, 1⟩

/-- Ranking record with fee 3, weight 1. -/
def posA : TxInfo := ⟨"", "", 3, 1⟩

/-- Ranking record with fee 1, weight 1. -/
def posB : TxInfo := ⟨"", "", 1, 1⟩

/-- Ranking record with fee 0, weight 3, for greedy-step instances. -/
def selT : TxInfo := ⟨"", "", 0, 3⟩

/-- Header whose previous-hash display value is not byte-order symmetric. -/
def bhC3 : BlockHeader :=
  ⟨0, "0100000000000000000000000000000000000000000000000000000000000000",
   "0000000000000000000000000000000000000000000000000000000000000000", 0, 0, 0⟩

/-- Header with distinct in-range field values and 32-byte hash fields. -/
def bhW : BlockHeader :=
  ⟨1, "0102030405060708091011121314151617181920212223242526272829303132",
   "3231302928272625242322212019181716151413121110090807060504030201", 2, 3, 4⟩

/-- Header starting its nonce search at 0. -/
def bhZero : BlockHeader := ⟨0, "", "", 0, 0, 0⟩

/-! ## Theorems -/

/-- C9 counterexample: `serInt` raises nothing on a negative input. The claim
says an error is raised for every `n < 0`; instead `Buffer.from([n])` coerces
the entry modulo 256, so `serInt (-1)` returns the single byte `0xff`. -/
theorem serInt_neg_one_coerces : serInt (-1) = [255] := by decide

/-- C9 (amended): `serInt` rejects nothing. On the domain below 2^64 (where
the 8-byte writer does not throw) a negative input falls into the first branch
and produces the single byte `n mod 256`; a non-negative input lands in the
documented size class: 1 raw byte below 0xfd, marker 0xfd plus 2 bytes LE up
to 0xffff, marker 0xfe plus 4 bytes LE up to 0xffffffff, marker 0xff plus
8 bytes LE beyond. -/
theorem serInt_size_classes (n : Int) (h64 : n < 18446744073709551616) :
    (n < 0xfd → serInt n = [(n % 256).toNat]) ∧
    (0xfd ≤ n → n ≤ 0xffff →
      serInt n = [0xfd, n.toNat % 256, n.toNat / 256]) ∧
    (0xffff < n → n ≤ 0xffffffff →
      serInt n = [0xfe, n.toNat % 256, n.toNat / 256 % 256,
                  n.toNat / 65536 % 256, n.toNat / 16777216]) ∧
    (0xffffffff < n →
      serInt n = [0xff, n.toNat % 256, n.toNat / 256 % 256,
                  n.toNat / 65536 % 256, n.toNat / 16777216 % 256,
                  n.toNat / 4294967296 % 256, n.toNat / 1099511627776 % 256,
                  n.toNat / 281474976710656 % 256,
                  n.toNat / 72057594037927936]) := by
  refine ⟨fun h1 => ?_, fun h1 h2 => ?_, fun h1 h2 => ?_, fun h1 => ?_⟩
  · simp [serInt, h1]
  · have hno : ¬ n < 253 := by omega
    simp only [serInt, hno, if_false, h2, if_true, iTo16b]
    have : n.toNat ≤ 65535 := by omega
    simp only [List.cons.injEq, and_true, true_and]
    omega
  · have hno : ¬ n < 253 := by omega
    have hno2 : ¬ n ≤ 65535 := by omega
    simp only [serInt, hno, if_false, hno2, h2, if_true, iTo32b]
    have : n.toNat ≤ 4294967295 := by omega
    simp only [List.cons.injEq, and_true, true_and]
    omega
  · have hno : ¬ n < 253 := by omega
    have hno2 : ¬ n ≤ 65535 := by omega
    have hno3 : ¬ n ≤ 4294967295 := by omega
    simp only [serInt, hno, if_false, hno2, hno3, ito64b]
    have : n.toNat < 18446744073709551616 := by omega
    simp only [List.cons.injEq, and_true, true_and]
    omega

/-- C9 witness: one instance per size class, including the coerced
single-byte classes. -/
theorem serInt_size_classes_witness :
    serInt 3 = [((3 : Int) % 256).toNat] ∧
    serInt 300 = [0xfd, (300 : Int).toNat % 256, (300 : Int).toNat / 256] ∧
    serInt 70000 = [0xfe, (70000 : Int).toNat % 256, (70000 : Int).toNat / 256 % 256,
                    (70000 : Int).toNat / 65536 % 256, (70000 : Int).toNat / 16777216] ∧
    serInt 4294967296 = [0xff, (4294967296 : Int).toNat % 256,
                    (4294967296 : Int).toNat / 256 % 256,
                    (4294967296 : Int).toNat / 65536 % 256,
                    (4294967296 : Int).toNat / 16777216 % 256,
                    (4294967296 : Int).toNat / 4294967296 % 256,
                    (4294967296 : Int).toNat / 1099511627776 % 256,
                    (4294967296 : Int).toNat / 281474976710656 % 256,
                    (4294967296 : Int).toNat / 72057594037927936] :=
  ⟨(serInt_size_classes 3 (by decide)).1 (by decide),
   (serInt_size_classes 300 (by decide)).2.1 (by decide) (by decide),
   (serInt_size_classes 70000 (by decide)).2.2.1 (by decide) (by decide),
   (serInt_size_classes 4294967296 (by decide)).2.2.2 (by decide)⟩

/-- C6: a transaction none of whose inputs carries a witness serializes
identically under the witness-inclusive and the base serializer: no
marker/flag pair and no witness stacks are emitted. -/
theorem segwit_serialization_eq_base (tx : Transaction)
    (h : ∀ vin ∈ tx.vin, vin.witness = []) :
    segwitSerialize tx = serTransactions tx := by
  have hc : chkSegwit tx = false := by
    simp only [chkSegwit, List.any_eq_false, decide_eq_false_iff_not, not_lt]
    intro vin hvin
    simp [h vin hvin]
  simp [segwitSerialize, serTransactions, hc]

/-- C6 witness: the non-segwit sample candidate. -/
theorem segwit_serialization_eq_base_witness :
    segwitSerialize tx1 = serTransactions tx1 :=
  segwit_serialization_eq_base tx1 (by decide)

/-- C1: the first component of `prioritize` is not the subsidy plus the
accepted fees in satoshis. On a single accepted candidate paying fee 1000
(in satoshis, as the candidate model carries prevout/output values in the
smallest unit) the code returns `(12.5 + 1000) * 100000000 = 101250000000`:
the fee, already in satoshis, is multiplied by 100000000 again alongside the
BTC-denominated subsidy literal `12.5`. The claimed value is
`1250000000 + 1000`. -/
theorem prioritize_reward_unit_mismatch :
    (prioritize shaZ [tx1]).1 = 101250000000 ∧
    (101250000000 : Rat) ≠ 1250000000 + 1000 := by
  have hperm : permittingtxs shaZ [tx1] = [mkTxInfo shaZ tx1] := by rfl
  have hfee : (mkTxInfo shaZ tx1).fee = 1000 := by decide
  constructor
  · simp only [prioritize, hperm, List.map_cons, List.map_nil, List.sum_cons,
      List.sum_nil, hfee]
    norm_num
  · norm_num

/-- C8: `prioritize` performs no fee-based filtering, so a candidate whose
fee is negative is admitted whenever its weight fits the remaining budget:
`txNeg` has fee -5 and its txid is the whole accepted id list. -/
theorem prioritize_admits_negative_fee :
    (mkTxInfo shaZ txNeg).fee = -5 ∧
    (prioritize shaZ [txNeg]).2.1 = [(mkTxInfo shaZ txNeg).txid] := by
  constructor
  · decide
  · decide

/-- Helper: the greedy scan never accepts more total weight than its
starting budget. -/
theorem selectTxs_weight_sum_le :
    ∀ (infos : List TxInfo) (w : Nat),
      ((selectTxs infos w).map TxInfo.weight).sum ≤ w := by
  intro infos
  induction infos with
  | nil => intro w; simp [selectTxs]
  | cons t ts ih =>
    intro w
    rw [selectTxs]
    by_cases hfit : t.weight ≤ w
    · rw [if_pos hfit]
      have := ih (w - t.weight)
      simp only [List.map_cons, List.sum_cons]
      omega
    · rw [if_neg hfit]
      exact ih w

/-- C5: the weight of the candidates accepted by `prioritize` never exceeds
the fixed budget 3999300, and the scan is greedy: a record is taken exactly
when the remaining budget covers its weight (deducting it), and is skipped
with the budget unchanged otherwise — never deferred. -/
theorem prioritize_weight_budget (sha : List Nat → List Nat)
    (txs : List Transaction) :
    ((permittingtxs sha txs).map TxInfo.weight).sum ≤ 3999300 ∧
    (∀ (t : TxInfo) (rest : List TxInfo) (w : Nat), t.weight ≤ w →
       selectTxs (t :: rest) w = t :: selectTxs rest (w - t.weight)) ∧
    (∀ (t : TxInfo) (rest : List TxInfo) (w : Nat), w < t.weight →
       selectTxs (t :: rest) w = selectTxs rest w) := by
  refine ⟨selectTxs_weight_sum_le _ _, fun t rest w hfit => ?_, fun t rest w hmiss => ?_⟩
  · rw [selectTxs, if_pos hfit]
  · rw [selectTxs, if_neg (by omega)]

/-- C5 witness: the budget bound on a concrete run, one accepted step
(weight 3 against budget 5) and one skipped step (weight 3 against
budget 2). -/
theorem prioritize_weight_budget_witness :
    ((permittingtxs shaZ [tx1]).map TxInfo.weight).sum ≤ 3999300 ∧
    selectTxs [selT] 5 = selT :: selectTxs [] (5 - selT.weight) ∧
    selectTxs [selT] 2 = selectTxs [] 2 :=
  ⟨(prioritize_weight_budget shaZ [tx1]).1,
   (prioritize_weight_budget shaZ [tx1]).2.1 selT [] 5 (by decide),
   (prioritize_weight_budget shaZ [tx1]).2.2 selT [] 2 (by decide)⟩

/-- Helper: the candidate-scanning loop from counter value `cnt` processes
exactly the first `4200 - cnt` candidates. -/
theorem txInfoLoop_eq_take (sha : List Nat → List Nat) :
    ∀ (txs : List Transaction) (cnt : Nat),
      txInfoLoop sha txs cnt = (txs.take (4200 - cnt)).map (mkTxInfo sha) := by
  intro txs
  induction txs with
  | nil => intro cnt; simp [txInfoLoop]
  | cons tx rest ih =>
    intro cnt
    rw [txInfoLoop]
    by_cases hc : 4200 < cnt + 1
    · rw [if_pos hc, show 4200 - cnt = 0 by omega]
      simp
    · rw [if_neg hc, ih (cnt + 1),
          show 4200 - cnt = (4200 - (cnt + 1)) + 1 by omega,
          List.take_succ_cons, List.map_cons]

/-- C10: `prioritize` depends only on the first 4200 candidates of its input:
its entire result on any candidate list equals its result on the list
truncated to the first 4200 entries, so every later candidate is excluded
from fee/weight computation, ranking and selection. -/
theorem prioritize_first_4200 (sha : List Nat → List Nat)
    (txs : List Transaction) :
    prioritize sha txs = prioritize sha (txs.take 4200) := by
  unfold prioritize permittingtxs
  rw [txInfoLoop_eq_take, txInfoLoop_eq_take, Nat.sub_zero,
      List.take_take, Nat.min_self]

/-- C7 counterexample: with only negative fees the maximum observed ratio is
negative, and dividing both comparator operands by it reverses the
comparison, so the normalized sort produces the opposite of plain descending
order: on `[cexA, cexB]` (ratios -1 and -2) the source comparator yields
`[cexB, cexA]` while plain descending ranking yields `[cexA, cexB]`. -/
theorem rank_normalized_ne_plain :
    sortCmp (normLe (maxRatio ([cexA, cexB].map feeRatio))) [cexA, cexB] ≠
      sortCmp specDescLe [cexA, cexB] := by
  have hm : maxRatio ([cexA, cexB].map feeRatio) = -1 := by
    simp [maxRatio, feeRatio, cexA, cexB]
  have h1 : normLe (maxRatio ([cexA, cexB].map feeRatio)) cexA cexB = false := by
    rw [hm]
    simp only [normLe, feeRatio, cexA, cexB, decide_eq_false_iff_not]
    norm_num
  have h2 : specDescLe cexA cexB = true := by
    simp only [specDescLe, feeRatio, cexA, cexB, decide_eq_true_eq]
    norm_num
  simp only [sortCmp, insertCmp, h1, h2, if_true, if_false]
  decide

/-- C7 (amended): the max-normalized comparator ranks exactly like the plain
fee-per-weight descending comparator whenever the maximum observed ratio is
positive (stability and tie order included, since the two "may come first"
relations then agree pointwise); with a non-positive maximum ratio the two
can disagree. -/
theorem rank_normalized_eq_plain (l : List TxInfo)
    (_hw : ∀ t ∈ l, 0 < t.weight)
    (hm : 0 < maxRatio (l.map feeRatio)) :
    sortCmp (normLe (maxRatio (l.map feeRatio))) l = sortCmp specDescLe l := by
  have hfun : normLe (maxRatio (l.map feeRatio)) = specDescLe := by
    funext a b
    simp only [normLe, specDescLe, decide_eq_decide]
    rw [← sub_div, div_le_iff₀ hm, zero_mul, sub_nonpos]
  rw [hfun]

/-- C7 witness: two positive-fee records (ratios 3 and 1) rank the same way
under both comparators. -/
theorem rank_normalized_eq_plain_witness :
    sortCmp (normLe (maxRatio ([posA, posB].map feeRatio))) [posA, posB] =
      sortCmp specDescLe [posA, posB] :=
  rank_normalized_eq_plain [posA, posB] (by decide)
    (by norm_num [maxRatio, feeRatio, posA, posB])

/-- Helper: with all four fixed-width fields in the unsigned 32-bit range the
header serializer succeeds, concatenating the fields in source order with the
hash fields hex-decoded as stored. -/
theorem blockHeaderSerialdata_ok (bh : BlockHeader)
    (hv : bh.version ≤ 0xffffffff) (ht : bh.timestamp ≤ 0xffffffff)
    (hb : bh.bits ≤ 0xffffffff) (hn : bh.nonce ≤ 0xffffffff) :
    blockHeaderSerialdata bh =
      .ok (iTo32b bh.version ++ hexDecode bh.prev_block_hash
           ++ hexDecode bh.merkle_root ++ iTo32b bh.timestamp
           ++ iTo32b bh.bits ++ iTo32b bh.nonce) := by
  simp [blockHeaderSerialdata, iTo32bE, hv, ht, hb, hn,
        Bind.bind, Except.bind, Pure.pure, Except.pure]

/-- Helper: a nonce beyond the unsigned 32-bit range makes the header
serializer raise the `RangeError` of `writeUInt32LE` (the earlier fields
still being in range). -/
theorem blockHeaderSerialdata_nonce_err (bh : BlockHeader)
    (hv : bh.version ≤ 0xffffffff) (ht : bh.timestamp ≤ 0xffffffff)
    (hb : bh.bits ≤ 0xffffffff) (hn : 0xffffffff < bh.nonce) :
    blockHeaderSerialdata bh = .error "RangeError: value out of range" := by
  simp [blockHeaderSerialdata, iTo32bE, hv, ht, hb, Nat.not_le.mpr hn,
        Bind.bind, Except.bind, Pure.pure, Except.pure]

/-- C3 counterexample: the header serializer does not byte-reverse the hash
fields. On `bhC3`, whose previous-hash display value starts with byte 0x01,
the output differs from the layout the claim describes (reversed hash
fields). -/
theorem blockHeaderSerialdata_no_reversal :
    blockHeaderSerialdata bhC3 ≠
      .ok (iTo32b bhC3.version ++ reversebyte (hexDecode bhC3.prev_block_hash)
           ++ reversebyte (hexDecode bhC3.merkle_root) ++ iTo32b bhC3.timestamp
           ++ iTo32b bhC3.bits ++ iTo32b bhC3.nonce) := by
  decide

/-- C3 (amended): for in-range fixed-width fields the serializer produces
version(4) then previous-hash then merkle-root then timestamp(4) then bits(4)
then nonce(4), with both hash fields inserted exactly as hex-decoded from
their stored display strings — no byte reversal — and the output is 80 bytes
whenever both hash fields decode to 32 bytes. -/
theorem blockHeaderSerialdata_layout (bh : BlockHeader)
    (hv : bh.version ≤ 0xffffffff) (ht : bh.timestamp ≤ 0xffffffff)
    (hb : bh.bits ≤ 0xffffffff) (hn : bh.nonce ≤ 0xffffffff) :
    blockHeaderSerialdata bh =
      .ok (iTo32b bh.version ++ hexDecode bh.prev_block_hash
           ++ hexDecode bh.merkle_root ++ iTo32b bh.timestamp
           ++ iTo32b bh.bits ++ iTo32b bh.nonce) ∧
    ((hexDecode bh.prev_block_hash).length = 32 →
     (hexDecode bh.merkle_root).length = 32 →
     (iTo32b bh.version ++ hexDecode bh.prev_block_hash
      ++ hexDecode bh.merkle_root ++ iTo32b bh.timestamp
      ++ iTo32b bh.bits ++ iTo32b bh.nonce).length = 80) := by
  refine ⟨blockHeaderSerialdata_ok bh hv ht hb hn, fun h1 h2 => ?_⟩
  simp [iTo32b, h1, h2]

/-- C3 witness: the layout and the 80-byte length at a concrete in-range
header with 32-byte hash fields. -/
theorem blockHeaderSerialdata_layout_witness :
    blockHeaderSerialdata bhW =
      .ok (iTo32b bhW.version ++ hexDecode bhW.prev_block_hash
           ++ hexDecode bhW.merkle_root ++ iTo32b bhW.timestamp
           ++ iTo32b bhW.bits ++ iTo32b bhW.nonce) ∧
    (iTo32b bhW.version ++ hexDecode bhW.prev_block_hash
     ++ hexDecode bhW.merkle_root ++ iTo32b bhW.timestamp
     ++ iTo32b bhW.bits ++ iTo32b bhW.nonce).length = 80 :=
  ⟨(blockHeaderSerialdata_layout bhW (by decide) (by decide) (by decide)
      (by decide)).1,
   (blockHeaderSerialdata_layout bhW (by decide) (by decide) (by decide)
      (by decide)).2 (by decide) (by decide)⟩

/-- Helper: `compArrays` on equal-length arrays returns the index-by-index
comparison without an error. -/
theorem compArrays_ok (a b : List Nat) (h : a.length = b.length) :
    compArrays a b = .ok (compArraysGo a b) := by
  simp [compArrays, h]

/-- C2: the nonce-exhaustion branch of `proofOfWork` is unreachable. When no
nonce in the 32-bit domain produces a digest below the target (and the digest
length always matches the 32-byte target, so the comparison itself never
throws), the search does not return `false`: after hashing nonce 0xffffffff
the loop increments to 0x100000000 and re-serializes before the domain check,
so `writeUInt32LE` raises its `RangeError` first. The claimed error-free
`false` result is never produced. -/
theorem proofOfWork_exhaustion_raises (sha : List Nat → List Nat)
    (bh : BlockHeader)
    (hv : bh.version ≤ 0xffffffff) (ht : bh.timestamp ≤ 0xffffffff)
    (hb : bh.bits ≤ 0xffffffff) (hn : bh.nonce ≤ 0xffffffff)
    (hlen : ∀ n, n ≤ 0xffffffff →
      (reversebyte (sha (sha (iTo32b bh.version ++ hexDecode bh.prev_block_hash
        ++ hexDecode bh.merkle_root ++ iTo32b bh.timestamp ++ iTo32b bh.bits
        ++ iTo32b n)))).length = 32)
    (hmiss : ∀ n, n ≤ 0xffffffff →
      compArraysGo (reversebyte (sha (sha (iTo32b bh.version
        ++ hexDecode bh.prev_block_hash ++ hexDecode bh.merkle_root
        ++ iTo32b bh.timestamp ++ iTo32b bh.bits ++ iTo32b n))))
        (hexDecode target) ≠ -1) :
    proofOfWork sha bh = .error "RangeError: value out of range" := by
  obtain ⟨v, p, m, t, b, nn⟩ := bh
  simp only at hv ht hb hn hlen hmiss
  have htlen : (hexDecode target).length = 32 := by decide
  have key : ∀ k n, n ≤ 0xffffffff → 0xffffffff - n ≤ k →
      proofOfWork sha ⟨v, p, m, t, b, n⟩ =
        .error "RangeError: value out of range" := by
    intro k
    induction k with
    | zero =>
      intro n hn1 hn2
      have hmax : n = 0xffffffff := by omega
      subst hmax
      rw [proofOfWork]
      rw [blockHeaderSerialdata_ok ⟨v, p, m, t, b, 0xffffffff⟩ hv ht hb (Nat.le_refl _)]
      simp only
      rw [compArrays_ok _ _ (by rw [hlen 0xffffffff (by omega), htlen])]
      simp only
      rw [if_neg (hmiss 0xffffffff (by omega)), if_neg (by omega)]
      rw [proofOfWork]
      rw [blockHeaderSerialdata_nonce_err ⟨v, p, m, t, b, 0xffffffff + 1⟩
            hv ht hb (Nat.lt_succ_self _)]
    | succ k ih =>
      intro n hn1 hn2
      by_cases hmax : n = 0xffffffff
      · subst hmax
        rw [proofOfWork]
        rw [blockHeaderSerialdata_ok ⟨v, p, m, t, b, 0xffffffff⟩ hv ht hb (Nat.le_refl _)]
        simp only
        rw [compArrays_ok _ _ (by rw [hlen 0xffffffff (by omega), htlen])]
        simp only
        rw [if_neg (hmiss 0xffffffff (by omega)), if_neg (by omega)]
        rw [proofOfWork]
        rw [blockHeaderSerialdata_nonce_err ⟨v, p, m, t, b, 0xffffffff + 1⟩
              hv ht hb (Nat.lt_succ_self _)]
      · rw [proofOfWork]
        rw [blockHeaderSerialdata_ok ⟨v, p, m, t, b, n⟩ hv ht hb hn1]
        simp only
        rw [compArrays_ok _ _ (by rw [hlen n hn1, htlen])]
        simp only
        rw [if_neg (hmiss n hn1), if_neg (by omega)]
        exact ih (n + 1) (by omega) (by omega)
  exact key (0xffffffff - nn) nn hn (by omega)

/-- C2 witness: with a digest function pinned to 32 `0xff` bytes every nonce
trial compares above the target, and the search ends in the `RangeError`
rather than an error-free `false`. -/
theorem proofOfWork_exhaustion_witness :
    proofOfWork shaFF bhZero = .error "RangeError: value out of range" :=
  proofOfWork_exhaustion_raises shaFF bhZero (by decide) (by decide)
    (by decide) (by decide)
    (fun n _ => by simp [shaFF, reversebyte])
    (fun n _ => by simp only [shaFF, reversebyte]; decide)

/-- Helper: pairwise combination of a list with at least two elements peels
off one combined pair. -/
theorem specPairUp_two_le (c : α → α → α) (l : List α) (d : α)
    (h : 2 ≤ l.length) :
    specPairUp c l = c (l.getD 0 d) (l.getD 1 d) :: specPairUp c (l.drop 2) := by
  match l, h with
  | a :: b :: rest, _ => simp [specPairUp]

/-- Helper: on an even-count level the source's mutating loop never pushes,
and from any even index it is plain pairwise combination of the remaining
nodes. -/
theorem mkLevel_even (sha : List Nat → List Nat) (ns : List (List Nat))
    (h2 : ns.length % 2 = 0) :
    ∀ (fuel i : Nat), ns.length - i ≤ fuel → i % 2 = 0 →
      mkLevel sha ns i = specPairUp (newMerknodeJoin sha) (ns.drop i) := by
  intro fuel
  induction fuel with
  | zero =>
    intro i hle hi
    have hge : ¬ i < ns.length := by omega
    rw [mkLevel, if_neg hge, List.drop_eq_nil_of_le (by omega)]
    rfl
  | succ fuel ih =>
    intro i hle hi
    by_cases hlt : i < ns.length
    · have hi1 : i + 1 < ns.length := by omega
      rw [mkLevel, if_pos hlt]
      simp only [h2, ne_eq, not_true_eq_false, if_false, ite_false]
      rw [ih (i + 2) (by omega) (by omega)]
      rw [specPairUp_two_le (newMerknodeJoin sha) (ns.drop i) [] (by simp; omega)]
      rw [List.getD_eq_getElem ns [] hlt, List.getD_eq_getElem ns [] hi1]
      rw [List.drop_eq_getElem_cons hlt, List.drop_eq_getElem_cons hi1]
      simp [List.getElem?_eq_getElem, hlt, hi1]
    · rw [mkLevel, if_neg hlt, List.drop_eq_nil_of_le (by omega)]
      rfl

/-- Helper: one pass of the source's level loop, entered at index 0, equals
the spec's level step: duplicate the last node when the count is odd, then
combine pairwise. The single push the mutating loop performs at its first
iteration is exactly the spec's duplication. -/
theorem mkLevel_zero_eq_specLevel (sha : List Nat → List Nat)
    (ns : List (List Nat)) :
    mkLevel sha ns 0 = specMerkleLevel (newMerknodeJoin sha) ns := by
  cases ns with
  | nil => rw [mkLevel]; simp [specMerkleLevel]
  | cons a rest =>
    have hne : (a :: rest) ≠ [] := by simp
    have hz : (a :: rest).getLast? = some ((a :: rest).getLast hne) :=
      List.getLast?_eq_getLast _ hne
    by_cases hpar : (a :: rest).length % 2 = 0
    · rw [mkLevel_even sha _ hpar ((a :: rest).length) 0 (by omega) (by omega),
          List.drop_zero, specMerkleLevel, hz]
      simp only [Option.some.injEq]
      rw [if_neg (by omega)]
    · have hpar1 : (a :: rest).length % 2 = 1 := by omega
      rw [mkLevel, if_pos (by simp)]
      simp only [ne_eq, hpar1, Nat.one_ne_zero, not_false_eq_true, if_true,
        ite_true]
      have hlast : (a :: rest).getD ((a :: rest).length - 1) []
          = (a :: rest).getLast hne := by
        rw [List.getD_eq_getElem _ _ (by simp)]
        exact (List.getLast_eq_getElem _ hne).symm
      set z := (a :: rest).getLast hne with hzdef
      have hp : (rest.length + 1) % 2 = 1 := by simpa using hpar1
      have h2 : ((a :: rest) ++ [z]).length % 2 = 0 := by
        simp only [List.length_append, List.length_cons, List.length_nil]
        omega
      rw [hlast]
      rw [mkLevel_even sha ((a :: rest) ++ [z]) h2 (((a :: rest) ++ [z]).length)
            2 (by omega) (by omega)]
      rw [specMerkleLevel, hz]
      simp only [Option.some.injEq]
      rw [if_pos hpar1]
      rw [specPairUp_two_le (newMerknodeJoin sha) ((a :: rest) ++ [z]) []
            (by simp [List.length_append])]

/-- Helper: pairwise combination halves the node count (rounding down). -/
theorem specPairUp_length (c : α → α → α) :
    ∀ l : List α, (specPairUp c l).length = l.length / 2
  | [] => by simp [specPairUp]
  | [a] => by simp [specPairUp]
  | a :: b :: rest => by
    simp [specPairUp, specPairUp_length c rest]
    omega

/-- Helper: a spec level has `(n + 1) / 2` nodes: each level at least halves
any level of two or more nodes. -/
theorem specMerkleLevel_length (c : α → α → α) (l : List α) :
    (specMerkleLevel c l).length = (l.length + 1) / 2 := by
  rw [specMerkleLevel]
  cases hl : l.getLast? with
  | none =>
    have : l = [] := by
      cases l with
      | nil => rfl
      | cons x xs =>
        rw [List.getLast?_eq_getLast (x :: xs) (by simp)] at hl
        exact absurd hl (by simp)
    subst this
    simp
  | some z =>
    have hne : l ≠ [] := by
      intro hnil
      subst hnil
      simp [List.getLast?] at hl
    have hpos : 0 < l.length := List.length_pos.mpr hne
    show (specPairUp c (if l.length % 2 = 1 then l ++ [z] else l)).length
        = (l.length + 1) / 2
    by_cases hpar : l.length % 2 = 1
    · rw [if_pos hpar, specPairUp_length]
      simp [List.length_append]
    · rw [if_neg hpar, specPairUp_length]
      omega

/-- Helper: with the same iteration bound the source tree loop and the spec
level fold agree on every nonempty level list, the source returning `nodes[0]`
of its final singleton level. -/
theorem mkTreeGo_eq_specGo (sha : List Nat → List Nat) :
    ∀ (fuel : Nat) (ns : List (List Nat)), ns ≠ [] →
      specMerkleRootGo (newMerknodeJoin sha) fuel ns =
        some ((mkTreeGo sha fuel ns).getD 0 []) := by
  intro fuel
  induction fuel with
  | zero =>
    intro ns hne
    cases ns with
    | nil => exact absurd rfl hne
    | cons a rest => simp [specMerkleRootGo, mkTreeGo]
  | succ fuel ih =>
    intro ns hne
    by_cases hlen : ns.length ≤ 1
    · cases ns with
      | nil => exact absurd rfl hne
      | cons a rest =>
        rw [specMerkleRootGo, mkTreeGo, if_pos hlen, if_neg (by omega)]
        simp
    · rw [specMerkleRootGo, mkTreeGo, if_neg hlen, if_pos (by omega),
          mkLevel_zero_eq_specLevel]
      exact ih (specMerkleLevel (newMerknodeJoin sha) ns)
        (List.length_pos.mp (by rw [specMerkleLevel_length]; omega))

/-- C4: `newMerkTree` computes the classic Bitcoin Merkle root over the
byte-reversed hex-decoded ids: leaves are `newMerknodeLeaf` (the reversed id),
parents are `newMerknodeJoin` (`sha (sha (left ++ right))`), the spec-side
construction duplicates the last node of every odd level, and a singleton
input yields its reversed digest with no combination (the `specMerkleRootGo`
base case). -/
theorem newMerkTree_classic (sha : List Nat → List Nat) (leaves : List String)
    (h : leaves ≠ []) :
    specMerkleRoot (newMerknodeJoin sha)
        (leaves.map fun leaf => newMerknodeLeaf (hexDecode leaf))
      = some (newMerkTree sha leaves) := by
  unfold specMerkleRoot newMerkTree mkTreeLoop
  exact mkTreeGo_eq_specGo sha _ _ (by simpa using h)

/-- C4 witness: a three-leaf instance (odd level at both levels) with a
data-dependent digest function. -/
theorem newMerkTree_classic_witness :
    specMerkleRoot (newMerknodeJoin shaT)
        (["aabb", "ccdd", "eeff"].map fun leaf => newMerknodeLeaf (hexDecode leaf))
      = some (newMerkTree shaT ["aabb", "ccdd", "eeff"]) :=
  newMerkTree_classic shaT ["aabb", "ccdd", "eeff"] (by decide)
